import Mathlib

/-!
Verification development for the read side of the `ruplicity` backup reader.

The Rust sources are shallowly embedded: machine bytes are `Nat`s below 256,
`u8` arithmetic is modelled with explicit `% 256`, the concurrent
`LinkedHashMap` behind `BlockCache` is modelled as an association list in
recency order (front = least recently used, back = most recently used), and
fallible operations return `Option`/`Except`.
-/

namespace Ruplicity

/-! ## Bytes and byte arithmetic (wrapping `u8` semantics) -/

/-- Wrapping `u8` subtraction: `a - b` on bytes (release-mode Rust semantics). -/
def wsub (a b : ℕ) : ℕ := (a % 256 + 256 - b % 256) % 256

/-- Wrapping `u8` addition. -/
def wadd (a b : ℕ) : ℕ := (a + b) % 256

/-- `u8` shift left by 4 (`<< 4`), keeping the low 8 bits. -/
def wshl4 (a : ℕ) : ℕ := (a % 256) * 16 % 256

/-! ## `read/cache.rs`: `BlockCache`

`BlockCache` wraps a `LinkedHashMap<BlockId, Block>` behind an `RwLock`.
The map is modelled as an association list in recency order:
head = least recently used (`pop_front` victim), last = most recently used.
-/

/-- `EntryId` comes from the `signatures` module (opaque here): a pair
`(path_id, snapshot#)`. -/
abbrev EntryId : Type := ℕ × ℕ

/-- `pub type BlockId = (EntryId, usize);` -/
abbrev BlockId : Type := EntryId × ℕ

/-- `const BLOCK_SIZE: usize = 64 * 1024;` (read/cache.rs). -/
def BLOCK_SIZE : ℕ := 64 * 1024

/-- The `LinkedHashMap<BlockId, Block>` contents, in recency order. -/
abbrev CacheIndex : Type := List (BlockId × List ℕ)

/-- `struct BlockCache { index: RwLock<LinkedHashMap<BlockId, Block>>, max_blocks: usize }` -/
structure BlockCache where
  index : CacheIndex
  max_blocks : ℕ
deriving DecidableEq

/-- `LinkedHashMap::get`: the block stored under `id`, if any. -/
def lookupBlock : CacheIndex → BlockId → Option (List ℕ)
  | [], _ => none
  | pr :: rest, id => if pr.1 = id then some pr.2 else lookupBlock rest id

/-- Remove the (unique) entry with key `id`, keeping the order of the rest. -/
def removeKey : CacheIndex → BlockId → CacheIndex
  | [], _ => []
  | pr :: rest, id => if pr.1 = id then rest else pr :: removeKey rest id

/-- `LinkedHashMap::get_refresh`: if present, move the entry to the back
(most recently used). -/
def refreshKey (l : CacheIndex) (id : BlockId) : CacheIndex :=
  match lookupBlock l id with
  | some b => removeKey l id ++ [(id, b)]
  | none => l

/-- `Block::write_max_block`: truncate the input to `BLOCK_SIZE` bytes,
clear the vector and write; returns the new contents and the number of
bytes written. -/
def write_max_block (data : List ℕ) : List ℕ × ℕ :=
  (data.take BLOCK_SIZE, min data.length BLOCK_SIZE)

/-- Overwrite the block stored under `id` (`get_mut` + `write_max_block`). -/
def setBlock (l : CacheIndex) (id : BlockId) (b : List ℕ) : CacheIndex :=
  l.map fun pr => if pr.1 = id then (id, b) else pr

/-- `BlockCache::new`. -/
def BlockCache.new (max_blocks : ℕ) : BlockCache :=
  { index := [], max_blocks := max_blocks }

/-- `BlockCache::read(id, buffer)`: refresh the entry under the write lock,
then copy out under the read lock.  The returned count is what
`block.as_slice().read(buffer)` yields: `min (block length) (buffer length)`.
Returns the count together with the cache after the recency update. -/
def BlockCache.read (c : BlockCache) (id : BlockId) (buflen : ℕ) :
    Option ℕ × BlockCache :=
  if (lookupBlock c.index id).isSome then
    let refreshed := refreshKey c.index id
    -- second phase: `index.get(&id)`; the `none` arm mirrors the race comment
    match lookupBlock refreshed id with
    | some b => (some (min b.length buflen), { c with index := refreshed })
    | none => (none, { c with index := refreshed })
  else (none, c)

/-- `BlockCache::write(id, buffer)`. -/
def BlockCache.write (c : BlockCache) (id : BlockId) (data : List ℕ) :
    Option ℕ × BlockCache :=
  if (lookupBlock c.index id).isSome then
    -- already written by someone else, don't change
    (none, c)
  else
    let idx1 :=
      match c.index with
      | old :: restIdx =>
        if c.index.length ≥ c.max_blocks then
          -- the cache is full, reuse the least used block
          restIdx ++ [(id, old.2)]
        else
          c.index ++ [(id, [])]
      | [] => [(id, [])]
    let wr := write_max_block data
    (some wr.2, { c with index := setBlock idx1 id wr.1 })

/-- `BlockCache::clear`. -/
def BlockCache.clear (c : BlockCache) : BlockCache :=
  { c with index := [] }

/-! ### Operation sequences over a `BlockCache` -/

/-- One observable `BlockCache` operation. -/
inductive CacheOp where
  | rd (id : BlockId) (buflen : ℕ)
  | wr (id : BlockId) (data : List ℕ)
  | clearAll

/-- Apply one operation to the cache state. -/
def stepOp (c : BlockCache) : CacheOp → BlockCache
  | .rd id buflen => (c.read id buflen).2
  | .wr id data => (c.write id data).2
  | .clearAll => c.clear

/-- The cache state after running `ops` on a fresh `BlockCache::new max`. -/
def runOps (max : ℕ) (ops : List CacheOp) : BlockCache :=
  ops.foldl stepOp (BlockCache.new max)

/-- Cache invariant: bounded entry count and bounded block sizes. -/
def CacheInv (c : BlockCache) : Prop :=
  c.index.length ≤ Nat.max c.max_blocks 1 ∧
    ∀ pr ∈ c.index, (pr.2 : List ℕ).length ≤ BLOCK_SIZE

/-! ## Exact model of the `f64` arithmetic used by `BlockProvider::new`

`(cache_size as f64 * 0.4) as usize` is evaluated in IEEE-754 binary64.
Every nonnegative finite double, and every exact product of two of them, is
a dyadic rational `num / 2^scale`; `Dyadic` represents such values exactly.
Rounding a positive dyadic to the nearest double (round to nearest, ties to
even, 53-bit significand) keeps the top 53 bits of the numerator and is
independent of the scale.  The literals `0.4` and `0.6` denote the doubles
`3602879701896397 / 2^53` and `5404319552844595 / 2^53`.  Subnormals and
overflow cannot arise in the range used and are not modelled. -/

/-- A nonnegative dyadic rational `num / 2^scale` (`scale` may be negative,
meaning multiplication by `2^(-scale)`). -/
structure Dyadic where
  num : ℕ
  scale : ℤ
deriving DecidableEq

/-- Largest `e` with `2^e ≤ m`, by repeated halving (`0` for `m ≤ 1`). -/
def scaleDownLog : ℕ → ℕ → ℕ
  | 0, _ => 0
  | fuel + 1, m => if 2 ≤ m then scaleDownLog fuel (m / 2) + 1 else 0

/-- `⌊log₂ m⌋` for `m ≥ 1`. -/
def natLog2 (m : ℕ) : ℕ := scaleDownLog m m

/-- Round a nonnegative dyadic to the nearest binary64 value: if the
numerator needs more than 53 bits, drop the excess `d` bits, rounding to
nearest with ties to the even 53-bit significand. -/
def f64round (x : Dyadic) : Dyadic :=
  if x.num = 0 then ⟨0, 0⟩
  else
    let ln := natLog2 x.num
    if ln ≤ 52 then x
    else
      let d := ln - 52
      let m := x.num / 2 ^ d
      let r := x.num % 2 ^ d
      let half := 2 ^ (d - 1)
      let m2 := if r < half then m
        else if half < r then m + 1
        else if m % 2 = 0 then m else m + 1
      ⟨m2, x.scale - d⟩

/-- `n as f64` for a `usize` value. -/
def f64ofNat (n : ℕ) : Dyadic := f64round ⟨n, 0⟩

/-- The exact value of the `f64` literal `0.4`. -/
def lit04 : Dyadic := ⟨3602879701896397, 53⟩

/-- The exact value of the `f64` literal `0.6`. -/
def lit06 : Dyadic := ⟨5404319552844595, 53⟩

/-- Binary64 multiplication of two (exactly represented) doubles: the exact
product, rounded. -/
def f64mul (a b : Dyadic) : Dyadic :=
  f64round ⟨a.num * b.num, a.scale + b.scale⟩

/-- `x as usize` for a nonnegative in-range double: truncation toward 0. -/
def f64toUsizeTrunc (x : Dyadic) : ℕ :=
  if x.scale ≤ 0 then x.num * 2 ^ (-x.scale).toNat
  else x.num / 2 ^ x.scale.toNat

/-- Round `a / b` to the nearest natural number, halves rounding up: the
plain-mathematics reading of the rounding written in the spec. -/
def natRoundDiv (a b : ℕ) : ℕ := (2 * a + b) / (2 * b)

/-! ## `read/mod.rs`: `BlockProvider` and `Entry` -/

/-- `enum CacheType { Snapshot, Signature }` -/
inductive CacheType where
  | Snapshot
  | Signature
deriving DecidableEq

/-- `BlockProvider`, restricted to its two caches.  The remaining fields
(`manifests`, `back`, `sig`, `backend`) are opaque collaborators that the
cache-sizing and cache-routing claims do not touch. -/
structure BlockProvider where
  dcache : BlockCache
  scache : BlockCache

/-- `BlockProvider::new`: `dcache` gets `(cache_size as f64 * 0.4) as usize`
blocks and `scache` gets `(cache_size as f64 * 0.6) as usize` blocks. -/
def BlockProvider.new (cache_size : ℕ) : BlockProvider :=
  { dcache := BlockCache.new (f64toUsizeTrunc (f64mul (f64ofNat cache_size) lit04)),
    scache := BlockCache.new (f64toUsizeTrunc (f64mul (f64ofNat cache_size) lit06)) }

/-- `BlockProvider::read_cached_block`: `Snapshot` reads go to `scache`,
`Signature` reads to `dcache`. -/
def BlockProvider.read_cached_block (p : BlockProvider) (id : BlockId)
    (buflen : ℕ) (ctype : CacheType) : Option ℕ × BlockCache :=
  if ctype = CacheType.Snapshot then p.scache.read id buflen
  else p.dcache.read id buflen

/-- C1 exactly as claimed, at one value of `total`: the cache used for
`Snapshot`-type cached-block reads has capacity `round (0.4 * total)` and
the `Signature`-type one `round (0.6 * total)`. -/
def claimC1At (total : ℕ) : Prop :=
  (BlockProvider.new total).scache.max_blocks = natRoundDiv (2 * total) 5 ∧
    (BlockProvider.new total).dcache.max_blocks = natRoundDiv (3 * total) 5

/-- `&buf[a..b]` on a byte slice: `none` models the Rust panic when the
range is out of bounds. -/
def sliceRange (l : List ℕ) (a b : ℕ) : Option (List ℕ) :=
  if a ≤ b ∧ b ≤ l.length then some ((l.take b).drop a) else none

/-- `<[u8]>::copy_from_slice`: `none` models the Rust panic when source and
destination lengths differ; on success the destination holds `src`. -/
def copy_from_slice (dst src : List ℕ) : Option (List ℕ) :=
  if dst.length = src.length then some src else none

/-- `Entry`, restricted to the fields `Entry::read` touches in its buffered
branch.  `provider`, `entry_type` and `stream` are used only by the refill
path (`fill_block`), which goes through `BlockStream` (read/stream.rs, not
among the sources). -/
structure Entry where
  buf : List ℕ
  len : ℕ
  pos : ℕ
  id : BlockId
deriving DecidableEq

/-- `Entry::read` (read/mod.rs lines 84–104), buffered branch: when
`len > 0` the code runs
`buf.copy_from_slice(&self.buf[self.pos..self.pos + len])` with
`len = min(self.len, buf.len())` and then advances `pos`/`len`.  `none`
models a panic.  The `else` branch (refill through `fill_block`) depends on
`BlockStream` (read/stream.rs, not among the sources) and is out of scope
here, also modelled as `none`. -/
def Entry.read (e : Entry) (out : List ℕ) : Option (ℕ × Entry × List ℕ) :=
  if 0 < e.len then
    let len := min e.len out.length
    match sliceRange e.buf e.pos (e.pos + len) with
    | none => none
    | some src =>
      match copy_from_slice out src with
      | none => none
      | some out2 =>
        some (len, { e with pos := e.pos + len, len := e.len - len }, out2)
  else
    none

/-! ## `manifest.rs`: words, escaping, the manifest parser and the index

The manifest is parsed from a byte stream; we model the stream as the list
of remaining bytes.  `usize` values are `ℕ` with an explicit `< 2^64`
overflow check where `from_str` can fail.
-/

/-- The byte value produced for an escape `\xHH`:
`((buf[i+2] - b'0') << 4) + buf[i+3] - b'0'` in wrapping `u8` arithmetic. -/
def escByte (c2 c3 : ℕ) : ℕ := wsub (wadd (wshl4 (wsub c2 48)) c3) 48

/-- The `while` loop of `unescape`: a byte other than `\` is copied; a `\`
followed by `x` with at least two more bytes (`buf.len() - i >= 4 &&
buf[i+1] == b'x'`) consumes four bytes and emits `escByte`; any other `\`
is dropped. -/
def unescapeLoop : List ℕ → List ℕ
  | [] => []
  | 92 :: 120 :: c2 :: c3 :: rest => escByte c2 c3 :: unescapeLoop rest
  | 92 :: rest => unescapeLoop rest
  | b :: rest => b :: unescapeLoop rest

/-- `unescape` (manifest.rs): strip surrounding quote bytes when the word
starts with `"` and has length over 1, then run the unescape loop. -/
def unescape (buf : List ℕ) : List ℕ :=
  match buf with
  | [] => []
  | first :: _ =>
    if first = 34 ∧ 1 < buf.length then
      unescapeLoop ((buf.drop 1).take (buf.length - 2))
    else unescapeLoop buf

/-- `WordIter::next`: skip leading spaces, then yield the run of non-space
bytes together with the rest of the line after the following spaces.
(The Rust loop discards empty words between consecutive spaces; here the
leading spaces are discarded one at a time, with the same result.) -/
def wordIterNext : List ℕ → Option (List ℕ × List ℕ)
  | [] => none
  | 32 :: rest => wordIterNext rest
  | b :: rest =>
    some (b :: rest.takeWhile (· ≠ 32),
      (rest.dropWhile (· ≠ 32)).dropWhile (· = 32))

/-- `lo ≤ b ≤ hi`, as a `Bool`. -/
def between (lo hi b : ℕ) : Bool := decide (lo ≤ b) && decide (b ≤ hi)

/-- A UTF-8 continuation byte (`0x80..=0xBF`). -/
def isCont (b : ℕ) : Bool := between 128 191 b

/-- `str::from_utf8` validity of a byte sequence (RFC 3629 ranges, as the
Rust validator checks them). -/
def utf8Valid : List ℕ → Bool
  | [] => true
  | b :: rest =>
    if b ≤ 127 then utf8Valid rest
    else if between 194 223 b then
      match rest with
      | c1 :: rest2 => isCont c1 && utf8Valid rest2
      | [] => false
    else if b = 224 then
      match rest with
      | c1 :: c2 :: rest2 => between 160 191 c1 && isCont c2 && utf8Valid rest2
      | _ => false
    else if between 225 236 b || b = 238 || b = 239 then
      match rest with
      | c1 :: c2 :: rest2 => isCont c1 && isCont c2 && utf8Valid rest2
      | _ => false
    else if b = 237 then
      match rest with
      | c1 :: c2 :: rest2 => between 128 159 c1 && isCont c2 && utf8Valid rest2
      | _ => false
    else if b = 240 then
      match rest with
      | c1 :: c2 :: c3 :: rest2 =>
        between 144 191 c1 && isCont c2 && isCont c3 && utf8Valid rest2
      | _ => false
    else if between 241 243 b then
      match rest with
      | c1 :: c2 :: c3 :: rest2 =>
        isCont c1 && isCont c2 && isCont c3 && utf8Valid rest2
      | _ => false
    else if b = 244 then
      match rest with
      | c1 :: c2 :: c3 :: rest2 =>
        between 128 143 c1 && isCont c2 && isCont c3 && utf8Valid rest2
      | _ => false
    else false

/-- An ASCII decimal digit. -/
def isDigitByte (b : ℕ) : Bool := between 48 57 b

/-- Decimal value of a nonempty all-digit byte sequence. -/
def parseDigits (l : List ℕ) : Option ℕ :=
  if l ≠ [] ∧ l.all isDigitByte then
    some (l.foldl (fun acc b => acc * 10 + (b - 48)) 0)
  else none

/-- `usize::from_str`: optional leading `+`, then decimal digits; overflow
of the 64-bit range is an error. -/
def parseUsize (w : List ℕ) : Option ℕ :=
  let digits := match w with | 43 :: rest => rest | _ => w
  match parseDigits digits with
  | some v => if v < 2 ^ 64 then some v else none
  | none => none

/-- `struct PathBlock { path: RawPath, block: Option<usize> }`.
`RawPath` stores the bytes it is built from (`from_bytes`/`as_bytes`). -/
structure PathBlock where
  path : List ℕ
  block : Option ℕ
deriving DecidableEq

/-- `struct Volume` (manifest.rs). -/
structure Volume where
  start_path : PathBlock
  end_path : PathBlock
  hash_type : List ℕ
  hash : List ℕ
deriving DecidableEq

/-- `struct Manifest` (manifest.rs). -/
structure Manifest where
  hostname : List ℕ
  local_dir : List ℕ
  volumes : List Volume
deriving DecidableEq

/-- `enum ParseError`.  `Io` covers the `io::Error` arm; the only I/O error
produced by the parser itself is `UnexpectedEof` from `check_eof!`. -/
inductive ParseError where
  | Io
  | MissingKeyword (kw : List ℕ)
  | MissingHash
  | MissingHashType
  | MissingPath
  | OutOfOrderVolume (n : ℕ)
  | ParseInt
  | Utf8
deriving DecidableEq

/-- `ManifestParser` state: the remaining input bytes and the current line
buffer. -/
structure PState where
  input : List ℕ
  buf : List ℕ
deriving DecidableEq

/-- `BufRead::read_until(b'\n')`: the bytes up to and including the first
newline (or all of them), and the remaining input. -/
def read_until_nl (input : List ℕ) : List ℕ × List ℕ :=
  let pre := input.takeWhile (· ≠ 10)
  match input.dropWhile (· ≠ 10) with
  | 10 :: tail => (pre ++ [10], tail)
  | _ => (pre, [])

/-- `ManifestParser::read_line`: read one line, strip a trailing LF and then
a trailing CR, store it in `buf`; returns whether the line is nonempty. -/
def read_line (p : PState) : PState × Bool :=
  let chunk := (read_until_nl p.input).1
  let rest := (read_until_nl p.input).2
  let b1 := if chunk ≠ [] ∧ chunk.getLast? = some 10 then chunk.dropLast else chunk
  let b2 := if b1 ≠ [] ∧ b1.getLast? = some 13 then b1.dropLast else b1
  (⟨rest, b2⟩, b2 ≠ [])

/-- Keyword byte strings. -/
def kwHostname : List ℕ := [72, 111, 115, 116, 110, 97, 109, 101]

def kwLocaldir : List ℕ := [76, 111, 99, 97, 108, 100, 105, 114]

def kwVolume : List ℕ := [86, 111, 108, 117, 109, 101]

def kwStartingPath : List ℕ := [83, 116, 97, 114, 116, 105, 110, 103, 80, 97, 116, 104]

def kwEndingPath : List ℕ := [69, 110, 100, 105, 110, 103, 80, 97, 116, 104]

def kwHash : List ℕ := [72, 97, 115, 104]

/-- `ManifestParser::read_param_bytes`: first word must be valid UTF-8 and
equal `key`; the optional second word is unescaped (missing second word
yields the empty parameter). -/
def read_param_bytes (p : PState) (key : List ℕ) : Except ParseError (List ℕ) :=
  match wordIterNext p.buf with
  | some (w, rest) =>
    if utf8Valid w then
      if w = key then
        match wordIterNext rest with
        | some (param, _) => .ok (unescape param)
        | none => .ok []
      else .error (.MissingKeyword key)
    else .error .Utf8
  | none => .error (.MissingKeyword key)

/-- `ManifestParser::read_param_str`: as `read_param_bytes`, and the
parameter must itself be valid UTF-8. -/
def read_param_str (p : PState) (key : List ℕ) : Except ParseError (List ℕ) :=
  match read_param_bytes p key with
  | .ok bytes => if utf8Valid bytes then .ok bytes else .error .Utf8
  | .error e => .error e

/-- `ManifestParser::read_path_block`: keyword, mandatory path word
(unescaped), optional block number. -/
def read_path_block (p : PState) (key : List ℕ) : Except ParseError PathBlock :=
  match wordIterNext p.buf with
  | none => .error (.MissingKeyword key)
  | some (w, rest) =>
    if utf8Valid w then
      if w = key then
        match wordIterNext rest with
        | none => .error .MissingPath
        | some (pw, rest2) =>
          match wordIterNext rest2 with
          | none => .ok ⟨unescape pw, none⟩
          | some (bw, _) =>
            if utf8Valid bw then
              match parseUsize bw with
              | some n => .ok ⟨unescape pw, some n⟩
              | none => .error .ParseInt
            else .error .Utf8
      else .error (.MissingKeyword key)
    else .error .Utf8

/-- `ManifestParser::read_hash_param`: `Hash` keyword, hash type word,
hash word decoded by subtracting `b'0'` from every byte. -/
def read_hash_param (p : PState) : Except ParseError (List ℕ × List ℕ) :=
  match wordIterNext p.buf with
  | none => .error (.MissingKeyword kwHash)
  | some (w, rest) =>
    if utf8Valid w then
      if w = kwHash then
        match wordIterNext rest with
        | none => .error .MissingHashType
        | some (tw, rest2) =>
          if utf8Valid tw then
            match wordIterNext rest2 with
            | none => .error .MissingHash
            | some (hw, _) => .ok (tw, hw.map (fun b => wsub b 48))
          else .error .Utf8
      else .error (.MissingKeyword kwHash)
    else .error .Utf8

/-- `ManifestParser::read_volume`: a blank (or absent) line means no more
volumes; otherwise parse the `Volume N[:]` header and the three following
lines.  `Except.error .Io` is the `UnexpectedEof` of `check_eof!`. -/
def read_volume (p : PState) : PState × Except ParseError (Option (Volume × ℕ)) :=
  let r1 := read_line p
  let p1 := r1.1
  if ¬r1.2 then (p1, .ok none)
  else
    match read_param_str p1 kwVolume with
    | .error e => (p1, .error e)
    | .ok param0 =>
      let param := if param0.getLast? = some 58 then param0.dropLast else param0
      match parseUsize param with
      | none => (p1, .error .ParseInt)
      | some num =>
        let r2 := read_line p1
        let p2 := r2.1
        if ¬r2.2 then (p2, .error .Io)
        else match read_path_block p2 kwStartingPath with
        | .error e => (p2, .error e)
        | .ok sp =>
          let r3 := read_line p2
          let p3 := r3.1
          if ¬r3.2 then (p3, .error .Io)
          else match read_path_block p3 kwEndingPath with
          | .error e => (p3, .error e)
          | .ok ep =>
            let r4 := read_line p3
            let p4 := r4.1
            if ¬r4.2 then (p4, .error .Io)
            else match read_hash_param p4 with
            | .error e => (p4, .error e)
            | .ok th => (p4, .ok (some (⟨sp, ep, th.1, th.2⟩, num)))

/-- The volume-collecting loop of `ManifestParser::parse`: read volumes,
checking that the `i`-th one carries number `i`.  The fuel only bounds the
iteration count; `Manifest.parse` supplies more fuel than the loop can
consume (each iteration consumes at least one input byte). -/
def parseVolumesLoop : ℕ → List Volume → PState → Except ParseError (List Volume)
  | 0, _, _ => .error .Io
  | fuel + 1, acc, p =>
    match read_volume p with
    | (_, .error e) => .error e
    | (_, .ok none) => .ok acc
    | (p2, .ok (some vi)) =>
      if vi.2 ≠ acc.length + 1 then .error (.OutOfOrderVolume vi.2)
      else parseVolumesLoop fuel (acc ++ [vi.1]) p2

/-- The sequence of volume numbers obtainable by running `read_volume`
repeatedly (ignoring the density check): the volume numbers as they appear
in the input. -/
def rvNums : ℕ → PState → List ℕ
  | 0, _ => []
  | fuel + 1, p =>
    match read_volume p with
    | (p2, .ok (some vi)) => vi.2 :: rvNums fuel p2
    | _ => []

/-- The header part of `ManifestParser::parse`: the `Hostname` and
`Localdir` lines; returns both values and the state at which the volume
loop starts. -/
def parseHeader (input : List ℕ) :
    Except ParseError (List ℕ × List ℕ × PState) :=
  let p0 : PState := ⟨input, []⟩
  let r1 := read_line p0
  let p1 := r1.1
  if ¬r1.2 then .error .Io
  else match read_param_str p1 kwHostname with
  | .error e => .error e
  | .ok hostname =>
    let r2 := read_line p1
    let p2 := r2.1
    if ¬r2.2 then .error .Io
    else match read_param_bytes p2 kwLocaldir with
    | .error e => .error e
    | .ok local_dir => .ok (hostname, local_dir, p2)

/-- `Manifest::parse` (via `ManifestParser::parse`). -/
def Manifest.parse (input : List ℕ) : Except ParseError Manifest :=
  match parseHeader input with
  | .error e => .error e
  | .ok hdp =>
    match parseVolumesLoop (hdp.2.2.input.length + 1) [] hdp.2.2 with
    | .error e => .error e
    | .ok vols => .ok ⟨hdp.1, hdp.2.1, vols⟩

/-- `Manifest::max_vol_num`. -/
def Manifest.max_vol_num (m : Manifest) : ℕ := m.volumes.length

/-- `Manifest::volume`: `0` yields `None`, otherwise index `num - 1`. -/
def Manifest.volume (m : Manifest) (num : ℕ) : Option Volume :=
  if num = 0 then none else m.volumes.get? (num - 1)

/-- Three-way byte-lexicographic comparison (`<[u8]>::cmp`). -/
def compareBytes : List ℕ → List ℕ → Ordering
  | [], [] => .eq
  | [], _ :: _ => .lt
  | _ :: _, [] => .gt
  | a :: as, b :: bs =>
    if a < b then .lt else if b < a then .gt else compareBytes as bs

/-- The comparator closure of `Manifest::first_volume_of_path`. -/
def volCmp (path : List ℕ) (v : Volume) : Ordering :=
  match compareBytes path v.start_path.path with
  | .lt => .gt
  | .gt =>
    match compareBytes path v.end_path.path with
    | .lt => .eq
    | .eq => .eq
    | .gt => .lt
  | .eq =>
    match v.start_path.block with
    | some n => if n > 0 then .gt else .eq
    | none => .eq

/-- `<[T]>::binary_search_by` as implemented in the Rust standard library
of the crate era: repeatedly split at `len / 2`, probe the head of the
upper half.  `Except.ok` is `Ok(index)`, `Except.error` the `Err(index)`
insertion point.  The fuel argument only bounds the recursion depth;
callers supply `length + 1`, which the halving can never exhaust. -/
def bsearchAux {α : Type} (f : α → Ordering) : ℕ → ℕ → List α → Except ℕ ℕ
  | 0, base, _ => .error base
  | fuel + 1, base, s =>
    match s.drop (s.length / 2) with
    | [] => .error base
    | t0 :: trest =>
      match f t0 with
      | .lt => bsearchAux f fuel (base + (s.take (s.length / 2)).length + 1) trest
      | .gt => bsearchAux f fuel base (s.take (s.length / 2))
      | .eq => .ok (base + (s.take (s.length / 2)).length)

/-- `binary_search_by` at top level. -/
def binary_search_by {α : Type} (f : α → Ordering) (s : List α) : Except ℕ ℕ :=
  bsearchAux f (s.length + 1) 0 s

/-- `Manifest::first_volume_of_path`. -/
def Manifest.first_volume_of_path (m : Manifest) (path : List ℕ) : Option ℕ :=
  match binary_search_by (volCmp path) m.volumes with
  | .ok idx => some (idx + 1)
  | .error _ => none

/-- `p` lies in the `[start, end]` byte range of volume `v`. -/
def volContains (v : Volume) (p : List ℕ) : Prop :=
  compareBytes p v.start_path.path ≠ .lt ∧ compareBytes p v.end_path.path ≠ .gt

instance (v : Volume) (p : List ℕ) : Decidable (volContains v p) :=
  inferInstanceAs (Decidable (_ ∧ _))

/-! ## `collections.rs`: the file-name classifier

`FileNameParser` matches a lowercased file name against two anchored
regexes.  The two patterns are implemented directly as byte-level matchers:
`(?P<time>.*?)` is non-greedy (shortest split whose tail matches; `.` does
not match a newline), `[0-9]+` is a maximal digit run (the following byte
is `.`, not a digit, so maximal munch agrees with backtracking), and
`(\.part)?($|\.)` tries the `.part` alternative first. -/

/-- `enum FileType { Full }` -/
inductive FileType where
  | Full
deriving DecidableEq

/-- `struct FileName` (collections.rs); `partial_flag` models the Rust
field `partial`. -/
structure FileName where
  file_type : FileType
  manifest : Bool
  volume_number : ℤ
  time : List ℕ
  compressed : Bool
  encrypted : Bool
  partial_flag : Bool
deriving DecidableEq

/-- `FileName::new`. -/
def FileName.new : FileName :=
  { file_type := .Full, manifest := false, volume_number := 0, time := [],
    compressed := false, encrypted := false, partial_flag := false }

/-- `u8::to_ascii_lowercase`. -/
def toLowerByte (b : ℕ) : ℕ := if 65 ≤ b ∧ b ≤ 90 then b + 32 else b

/-- `str::to_ascii_lowercase` on the underlying bytes. -/
def to_ascii_lowercase (s : List ℕ) : List ℕ := s.map toLowerByte

/-- `str::ends_with` on bytes. -/
def endsWithB (s suffix : List ℕ) : Bool := suffix.isSuffixOf s

/-- `FileNameParser::is_encrypted`: ends with `.gpg` or `.g`. -/
def is_encrypted (s : List ℕ) : Bool :=
  endsWithB s [46, 103, 112, 103] || endsWithB s [46, 103]

/-- `FileNameParser::is_compressed`: ends with `.gz` or `.z`. -/
def is_compressed (s : List ℕ) : Bool :=
  endsWithB s [46, 103, 122] || endsWithB s [46, 122]

/-- `i32::from_str` on a digit capture: overflow is `None`. -/
def parseI32 (l : List ℕ) : Option ℤ :=
  match parseDigits l with
  | some v => if v < 2 ^ 31 then some (v : ℤ) else none
  | none => none

/-- `($|\.)`: the match position is the end of the name or a literal dot. -/
def endOk : List ℕ → Bool
  | [] => true
  | 46 :: _ => true
  | _ => false

/-- The tail `\.vol(?P<num>[0-9]+)\.difftar(\.part)?($|\.)` of the full
volume pattern; returns the `num` capture. -/
def matchVolTail (s : List ℕ) : Option (List ℕ) :=
  if s.take 4 = [46, 118, 111, 108] then
    let rest := s.drop 4
    let digits := rest.takeWhile isDigitByte
    if digits = [] then none
    else
      let rest2 := rest.drop digits.length
      if rest2.take 8 = [46, 100, 105, 102, 102, 116, 97, 114] then
        let rest3 := rest2.drop 8
        if rest3.take 5 = [46, 112, 97, 114, 116] ∧ endOk (rest3.drop 5) then
          some digits
        else if endOk rest3 then some digits
        else none
      else none
  else none

/-- The tail `\.manifest(?P<partial>(\.part))?($|\.)` of the full manifest
pattern; returns whether the `partial` group matched. -/
def matchManTail (s : List ℕ) : Option Bool :=
  if s.take 9 = [46, 109, 97, 110, 105, 102, 101, 115, 116] then
    let rest3 := s.drop 9
    if rest3.take 5 = [46, 112, 97, 114, 116] ∧ endOk (rest3.drop 5) then
      some true
    else if endOk rest3 then some false
    else none
  else none

/-- Non-greedy `(?P<time>.*?)` before the volume tail: the shortest prefix
(of non-newline bytes) whose remainder matches `matchVolTail`. -/
def findVolSplit : List ℕ → List ℕ → Option (List ℕ × List ℕ)
  | timeRev, s =>
    match matchVolTail s with
    | some digits => some (timeRev.reverse, digits)
    | none =>
      match s with
      | [] => none
      | c :: rest => if c = 10 then none else findVolSplit (c :: timeRev) rest

/-- Non-greedy `(?P<time>.*?)` before the manifest tail. -/
def findManSplit : List ℕ → List ℕ → Option (List ℕ × Bool)
  | timeRev, s =>
    match matchManTail s with
    | some part => some (timeRev.reverse, part)
    | none =>
      match s with
      | [] => none
      | c :: rest => if c = 10 then none else findManSplit (c :: timeRev) rest

/-- `^duplicity-full\.` -/
def dupFullPrefix : List ℕ :=
  [100, 117, 112, 108, 105, 99, 105, 116, 121, 45, 102, 117, 108, 108, 46]

/-- `FileNameParser::check_full`: try the full-volume regex first (a match
with an unparsable volume number makes the whole function return `None`,
via `try_opt!`), then the full-manifest regex. -/
def check_full (lower : List ℕ) : Option FileName :=
  if lower.take 15 = dupFullPrefix then
    match findVolSplit [] (lower.drop 15) with
    | some td =>
      match parseI32 td.2 with
      | some numv =>
        some { FileName.new with
          file_type := .Full, volume_number := numv, time := td.1 }
      | none => none
    | none =>
      match findManSplit [] (lower.drop 15) with
      | some tp =>
        some { FileName.new with
          file_type := .Full, manifest := true, time := tp.1,
          partial_flag := tp.2 }
      | none => none
  else none

/-- `FileNameParser::parse`: lowercase, classify, then set `compressed`
and `encrypted` from the lowercased name independently of the match. -/
def FileNameParser.parse (filename : List ℕ) : Option FileName :=
  match check_full (to_ascii_lowercase filename) with
  | some r =>
    some { r with
      compressed := is_compressed (to_ascii_lowercase filename),
      encrypted := is_encrypted (to_ascii_lowercase filename) }
  | none => none

/-! ### Concrete manifest inputs used as test vectors -/

/-- Bytes of
`"Hostname myhost\nLocaldir dir\nVolume 1\nStartingPath a\nEndingPath c\nHash SHA1 00\nVolume 2\nStartingPath a\nEndingPath c\nHash SHA1 00\n"`:
two volumes with the identical range `[a, c]`. -/
def demoDupInput : List ℕ :=
  [72, 111, 115, 116, 110, 97, 109, 101, 32, 109, 121, 104, 111, 115, 116, 10,
   76, 111, 99, 97, 108, 100, 105, 114, 32, 100, 105, 114, 10,
   86, 111, 108, 117, 109, 101, 32, 49, 10,
   83, 116, 97, 114, 116, 105, 110, 103, 80, 97, 116, 104, 32, 97, 10,
   69, 110, 100, 105, 110, 103, 80, 97, 116, 104, 32, 99, 10,
   72, 97, 115, 104, 32, 83, 72, 65, 49, 32, 48, 48, 10,
   86, 111, 108, 117, 109, 101, 32, 50, 10,
   83, 116, 97, 114, 116, 105, 110, 103, 80, 97, 116, 104, 32, 97, 10,
   69, 110, 100, 105, 110, 103, 80, 97, 116, 104, 32, 99, 10,
   72, 97, 115, 104, 32, 83, 72, 65, 49, 32, 48, 48, 10]

/-- Bytes of
`"Hostname myhost\nLocaldir dir\nVolume 2\nStartingPath a\nEndingPath c\nHash SHA1 00\n"`:
the first volume header carries number 2. -/
def demoOooInput : List ℕ :=
  [72, 111, 115, 116, 110, 97, 109, 101, 32, 109, 121, 104, 111, 115, 116, 10,
   76, 111, 99, 97, 108, 100, 105, 114, 32, 100, 105, 114, 10,
   86, 111, 108, 117, 109, 101, 32, 50, 10,
   83, 116, 97, 114, 116, 105, 110, 103, 80, 97, 116, 104, 32, 97, 10,
   69, 110, 100, 105, 110, 103, 80, 97, 116, 104, 32, 99, 10,
   72, 97, 115, 104, 32, 83, 72, 65, 49, 32, 48, 48, 10]

/-- Bytes of `"Hostname myhost\nLocaldir dir\n\ngarbage after blank"`: a
blank line where a `Volume` header is expected, followed by bytes that are
not valid manifest content. -/
def demoBlankInput : List ℕ :=
  [72, 111, 115, 116, 110, 97, 109, 101, 32, 109, 121, 104, 111, 115, 116, 10,
   76, 111, 99, 97, 108, 100, 105, 114, 32, 100, 105, 114, 10, 10,
   103, 97, 114, 98, 97, 103, 101, 32, 97, 102, 116, 101, 114, 32, 98, 108,
   97, 110, 107]

/-- Bytes of
`"Hostname myhost\nLocaldir dir\nVolume 1\nStartingPath a 3\nEndingPath b\nHash SHA1 00\nVolume 2\nStartingPath b 2\nEndingPath d\nHash SHA1 00\n"`:
contiguous volumes where path `b` ends volume 1 and starts volume 2 with
`start_block = 2 > 0`. -/
def demoTieInput : List ℕ :=
  [72, 111, 115, 116, 110, 97, 109, 101, 32, 109, 121, 104, 111, 115, 116, 10,
   76, 111, 99, 97, 108, 100, 105, 114, 32, 100, 105, 114, 10,
   86, 111, 108, 117, 109, 101, 32, 49, 10,
   83, 116, 97, 114, 116, 105, 110, 103, 80, 97, 116, 104, 32, 97, 32, 51, 10,
   69, 110, 100, 105, 110, 103, 80, 97, 116, 104, 32, 98, 10,
   72, 97, 115, 104, 32, 83, 72, 65, 49, 32, 48, 48, 10,
   86, 111, 108, 117, 109, 101, 32, 50, 10,
   83, 116, 97, 114, 116, 105, 110, 103, 80, 97, 116, 104, 32, 98, 32, 50, 10,
   69, 110, 100, 105, 110, 103, 80, 97, 116, 104, 32, 100, 10,
   72, 97, 115, 104, 32, 83, 72, 65, 49, 32, 48, 48, 10]

/-- The header result of parsing `demoOooInput`: hostname `myhost`,
localdir `dir`, and the parser state positioned at the `Volume 2` line
(with the `Localdir` line still in the buffer). -/
def demoOooHdr : List ℕ × List ℕ × PState :=
  ([109, 121, 104, 111, 115, 116], [100, 105, 114],
    ⟨[86, 111, 108, 117, 109, 101, 32, 50, 10, 83, 116, 97, 114, 116, 105,
      110, 103, 80, 97, 116, 104, 32, 97, 10, 69, 110, 100, 105, 110, 103,
      80, 97, 116, 104, 32, 99, 10, 72, 97, 115, 104, 32, 83, 72, 65, 49,
      32, 48, 48, 10],
     [76, 111, 99, 97, 108, 100, 105, 114, 32, 100, 105, 114]⟩)

/-- The manifest that `Manifest.parse demoDupInput` produces. -/
def demoDupManifest : Manifest :=
  ⟨[109, 121, 104, 111, 115, 116], [100, 105, 114],
   [⟨⟨[97], none⟩, ⟨[99], none⟩, [83, 72, 65, 49], [0, 0]⟩,
    ⟨⟨[97], none⟩, ⟨[99], none⟩, [83, 72, 65, 49], [0, 0]⟩]⟩

/-- The manifest that `Manifest.parse demoTieInput` produces. -/
def demoTieManifest : Manifest :=
  ⟨[109, 121, 104, 111, 115, 116], [100, 105, 114],
   [⟨⟨[97], some 3⟩, ⟨[98], none⟩, [83, 72, 65, 49], [0, 0]⟩,
    ⟨⟨[98], some 2⟩, ⟨[100], none⟩, [83, 72, 65, 49], [0, 0]⟩]⟩

theorem mem_removeKey (l : CacheIndex) (id : BlockId) (pr : BlockId × List ℕ)
    (h : pr ∈ removeKey l id) : pr ∈ l := by
  induction l with
  | nil => simp [removeKey] at h
  | cons q rest ih =>
    simp only [removeKey] at h
    split at h
    · exact List.mem_cons_of_mem _ h
    · rcases List.mem_cons.1 h with h | h
      · exact h ▸ List.mem_cons_self _ _
      · exact List.mem_cons_of_mem _ (ih h)

theorem removeKey_length (l : CacheIndex) (id : BlockId) (b : List ℕ)
    (h : lookupBlock l id = some b) :
    (removeKey l id).length + 1 = l.length := by
  induction l with
  | nil => simp [lookupBlock] at h
  | cons q rest ih =>
    simp only [lookupBlock] at h
    simp only [removeKey]
    by_cases hq : q.1 = id
    · simp [hq]
    · rw [if_neg hq] at h
      simp only [if_neg hq, List.length_cons]
      rw [← ih h]

theorem refreshKey_length (l : CacheIndex) (id : BlockId) :
    (refreshKey l id).length ≤ l.length := by
  unfold refreshKey
  cases hl : lookupBlock l id with
  | none => simp
  | some b =>
    simp only [List.length_append, List.length_singleton]
    exact le_of_eq (removeKey_length l id b hl)

theorem lookupBlock_mem {l : CacheIndex} {id : BlockId} {b : List ℕ}
    (h : lookupBlock l id = some b) : (id, b) ∈ l := by
  induction l with
  | nil => simp [lookupBlock] at h
  | cons q rest ih =>
    simp only [lookupBlock] at h
    by_cases hq : q.1 = id
    · rw [if_pos hq] at h
      have : q = (id, b) := by
        cases q
        simp only [Option.some.injEq] at h
        simp_all
      exact this ▸ List.mem_cons_self _ _
    · rw [if_neg hq] at h
      exact List.mem_cons_of_mem _ (ih h)

theorem mem_refreshKey (l : CacheIndex) (id : BlockId) (pr : BlockId × List ℕ)
    (h : pr ∈ refreshKey l id) : pr ∈ l := by
  unfold refreshKey at h
  cases hl : lookupBlock l id with
  | none => rw [hl] at h; exact h
  | some b =>
    rw [hl] at h
    rcases List.mem_append.1 h with h | h
    · exact mem_removeKey _ _ _ h
    · simp only [List.mem_singleton] at h
      exact h ▸ lookupBlock_mem hl

theorem mem_setBlock (l : CacheIndex) (id : BlockId) (b : List ℕ)
    (pr : BlockId × List ℕ) (h : pr ∈ setBlock l id b) :
    pr ∈ l ∨ pr = (id, b) := by
  unfold setBlock at h
  rcases List.mem_map.1 h with ⟨q, hq, hmap⟩
  by_cases hqid : q.1 = id
  · simp only [hqid, if_pos rfl] at hmap
    exact Or.inr hmap.symm
  · simp only [if_neg hqid] at hmap
    exact Or.inl (hmap ▸ hq)

theorem setBlock_length (l : CacheIndex) (id : BlockId) (b : List ℕ) :
    (setBlock l id b).length = l.length := by
  simp [setBlock]

/-- `stepOp` preserves the cache invariant. -/
theorem stepOp_inv (c : BlockCache) (op : CacheOp) (h : CacheInv c) :
    CacheInv (stepOp c op) := by
  obtain ⟨hlen, hblocks⟩ := h
  cases op with
  | clearAll =>
    constructor
    · simp [stepOp, BlockCache.clear]
    · intro pr hpr; simp [stepOp, BlockCache.clear] at hpr
  | rd id buflen =>
    simp only [stepOp, BlockCache.read]
    split
    · split
      all_goals
        constructor
        · exact le_trans (refreshKey_length c.index id) hlen
        · intro pr hpr
          exact hblocks pr (mem_refreshKey c.index id pr hpr)
    · exact ⟨hlen, hblocks⟩
  | wr id data =>
    simp only [stepOp, BlockCache.write]
    split
    · exact ⟨hlen, hblocks⟩
    · rcases hidx : c.index with _ | ⟨old, restIdx⟩
      · dsimp only
        constructor
        · simp only [setBlock_length, List.length_singleton]
          exact Nat.le_max_right _ 1
        · intro pr hpr
          rcases mem_setBlock _ id _ pr hpr with hm | hm
          · simp only [List.mem_singleton] at hm
            subst hm
            simp [BLOCK_SIZE]
          · subst hm
            simp [write_max_block]
      · dsimp only
        rw [hidx] at hlen
        constructor
        · rw [setBlock_length]
          split
          · rename_i hfull
            simp only [List.length_append, List.length_singleton]
            simpa using hlen
          · rename_i hfull
            simp only [List.length_cons, List.length_append, List.length_singleton]
            have h1 : restIdx.length + 1 + 1 ≤ c.max_blocks := by
              simp only [ge_iff_le, not_le, List.length_cons] at hfull
              omega
            exact le_trans h1 (Nat.le_max_left _ 1)
        · intro pr hpr
          rcases mem_setBlock _ id _ pr hpr with hm | hm
          · split at hm
            · rcases List.mem_append.1 hm with hm | hm
              · exact hblocks pr (hidx ▸ List.mem_cons_of_mem _ hm)
              · simp only [List.mem_singleton] at hm
                subst hm
                exact hblocks old (hidx ▸ List.mem_cons_self _ _)
            · rcases List.mem_append.1 hm with hm2 | hm2
              · exact hblocks pr (hidx ▸ hm2)
              · simp only [List.mem_singleton] at hm2
                subst hm2
                simp [BLOCK_SIZE]
          · subst hm
            simp [write_max_block]

theorem runOps_inv (max : ℕ) (ops : List CacheOp) : CacheInv (runOps max ops) := by
  have hinit : CacheInv (BlockCache.new max) := by
    constructor
    · simp [BlockCache.new]
    · intro pr hpr; simp [BlockCache.new] at hpr
  rw [runOps]
  generalize BlockCache.new max = c at hinit ⊢
  induction ops generalizing c with
  | nil => simpa using hinit
  | cons op rest ih =>
    rw [List.foldl_cons]
    exact ih _ (stepOp_inv _ _ hinit)

theorem stepOp_max_blocks (c : BlockCache) (op : CacheOp) :
    (stepOp c op).max_blocks = c.max_blocks := by
  cases op with
  | clearAll => rfl
  | rd id buflen =>
    simp only [stepOp, BlockCache.read]
    split
    · split <;> rfl
    · rfl
  | wr id data =>
    simp only [stepOp, BlockCache.write]
    split <;> rfl

theorem runOps_max_blocks (max : ℕ) (ops : List CacheOp) :
    (runOps max ops).max_blocks = max := by
  rw [runOps]
  have : (BlockCache.new max).max_blocks = max := rfl
  generalize BlockCache.new max = c at this ⊢
  induction ops generalizing c with
  | nil => simpa using this
  | cons op rest ih =>
    rw [List.foldl_cons]
    exact ih _ ((stepOp_max_blocks c op).trans this)

/-- C3 counterexample: on a `BlockCache` constructed with `max_blocks == 0`,
the very first `write` is not a no-op — it stores the block (returning
`some 1` for a one-byte buffer), after which the entry count is `1 > 0 =
max_blocks` and a `read` of that id returns `some`, refuting both halves of
the claim. -/
theorem cache_max_zero_counterexample :
    ((BlockCache.new 0).write ((0, 0), 0) [7]).1 = some 1 ∧
    (runOps 0 [CacheOp.wr ((0, 0), 0) [7]]).index.length = 1 ∧
    ¬(runOps 0 [CacheOp.wr ((0, 0), 0) [7]]).index.length ≤
        (runOps 0 [CacheOp.wr ((0, 0), 0) [7]]).max_blocks ∧
    ((((BlockCache.new 0).write ((0, 0), 0) [7]).2).read ((0, 0), 0) 5).1 =
      some 1 := by
  decide

/-- C3 (amended): for every sequence of `BlockCache` operations, at every
point the number of entries is at most `max max_blocks 1` and every stored
block's length is at most 64 KiB.  A `write` of an id that is absent always
stores the (truncated) buffer and returns `some (min len BLOCK_SIZE)` — in
particular on `max_blocks == 0` the first write is not a no-op — and a `read`
right after such a write on a fresh zero-capacity cache returns `some`. -/
theorem cache_invariant_amended :
    (∀ max ops, (runOps max ops).index.length ≤ Nat.max max 1 ∧
      ∀ pr ∈ (runOps max ops).index, (pr.2 : List ℕ).length ≤ BLOCK_SIZE) ∧
    (∀ (c : BlockCache) id data, lookupBlock c.index id = none →
      (c.write id data).1 = some (min data.length BLOCK_SIZE)) ∧
    (∀ id data buflen,
      ((((BlockCache.new 0).write id data).2).read id buflen).1 =
        some (min (min data.length BLOCK_SIZE) buflen)) := by
  refine ⟨fun max ops => ?_, fun c id data h => ?_, fun id data buflen => ?_⟩
  · obtain ⟨h1, h2⟩ := runOps_inv max ops
    rw [runOps_max_blocks] at h1
    exact ⟨h1, h2⟩
  · rw [BlockCache.write]
    rw [h]
    simp [write_max_block]
  · have hw : (((BlockCache.new 0).write id data).2).index
        = [(id, data.take BLOCK_SIZE)] := by
      simp [BlockCache.write, BlockCache.new, lookupBlock, setBlock,
        write_max_block]
    rw [BlockCache.read, hw]
    simp [lookupBlock, refreshKey, removeKey, List.length_take, min_comm]

/-- C3 witness: the amended theorem applied at concrete inputs. -/
theorem cache_invariant_amended_witness :
    ((runOps 0 [CacheOp.wr ((0, 0), 0) [7, 8]]).index.length ≤ Nat.max 0 1) ∧
    (lookupBlock (BlockCache.new 0).index ((0, 0), 0) = none ∧
      ((BlockCache.new 0).write ((0, 0), 0) [7, 8]).1 =
        some (min ([7, 8] : List ℕ).length BLOCK_SIZE)) ∧
    ((((BlockCache.new 0).write ((0, 0), 0) [7, 8]).2).read ((0, 0), 0) 5).1 =
      some (min (min ([7, 8] : List ℕ).length BLOCK_SIZE) 5) :=
  ⟨(cache_invariant_amended.1 0 _).1,
    ⟨by decide, cache_invariant_amended.2.1 _ _ _ (by decide)⟩,
    cache_invariant_amended.2.2 ((0, 0), 0) [7, 8] 5⟩

/-- C7: a `write` whose `BlockId` is already present returns `none` and
leaves the cache completely unchanged — same stored bytes for every entry
and the same recency order. -/
theorem write_present_id_frame (c : BlockCache) (id : BlockId) (data : List ℕ)
    (h : (lookupBlock c.index id).isSome = true) :
    c.write id data = (none, c) := by
  rw [BlockCache.write, if_pos h]

/-- C1 counterexample: at `total = 10` the cache serving `Snapshot`-type
cached-block reads (`scache`) has capacity `6 = trunc(10 * 0.6)`, not
`round(0.4 * 10) = 4`, and `dcache` has `4`, not `6`: the claimed sizing
split is swapped. -/
theorem provider_sizing_counterexample :
    ¬ claimC1At 10 ∧
    (BlockProvider.new 10).scache.max_blocks = 6 ∧
    (BlockProvider.new 10).dcache.max_blocks = 4 := by
  refine ⟨?_, by decide, by decide⟩
  simp only [claimC1At]
  decide

set_option maxRecDepth 10000 in
set_option maxHeartbeats 1600000 in
theorem provider_caps_chunk0 : ∀ t, t < 128 →
    (BlockProvider.new t).scache.max_blocks = 3 * t / 5 ∧
      (BlockProvider.new t).dcache.max_blocks = 2 * t / 5 := by
  decide

set_option maxRecDepth 10000 in
set_option maxHeartbeats 1600000 in
theorem provider_caps_chunk1 : ∀ t, t < 128 →
    (BlockProvider.new (t + 128)).scache.max_blocks = 3 * (t + 128) / 5 ∧
      (BlockProvider.new (t + 128)).dcache.max_blocks = 2 * (t + 128) / 5 := by
  decide

set_option maxRecDepth 10000 in
set_option maxHeartbeats 1600000 in
theorem provider_caps_chunk2 : ∀ t, t < 128 →
    (BlockProvider.new (t + 256)).scache.max_blocks = 3 * (t + 256) / 5 ∧
      (BlockProvider.new (t + 256)).dcache.max_blocks = 2 * (t + 256) / 5 := by
  decide

set_option maxRecDepth 10000 in
set_option maxHeartbeats 1600000 in
theorem provider_caps_chunk3 : ∀ t, t < 128 →
    (BlockProvider.new (t + 384)).scache.max_blocks = 3 * (t + 384) / 5 ∧
      (BlockProvider.new (t + 384)).dcache.max_blocks = 2 * (t + 384) / 5 := by
  decide

set_option maxRecDepth 10000 in
set_option maxHeartbeats 1600000 in
theorem provider_caps_chunk4 : ∀ t, t < 128 →
    (BlockProvider.new (t + 512)).scache.max_blocks = 3 * (t + 512) / 5 ∧
      (BlockProvider.new (t + 512)).dcache.max_blocks = 2 * (t + 512) / 5 := by
  decide

set_option maxRecDepth 10000 in
set_option maxHeartbeats 1600000 in
theorem provider_caps_chunk5 : ∀ t, t < 128 →
    (BlockProvider.new (t + 640)).scache.max_blocks = 3 * (t + 640) / 5 ∧
      (BlockProvider.new (t + 640)).dcache.max_blocks = 2 * (t + 640) / 5 := by
  decide

set_option maxRecDepth 10000 in
set_option maxHeartbeats 1600000 in
theorem provider_caps_chunk6 : ∀ t, t < 128 →
    (BlockProvider.new (t + 768)).scache.max_blocks = 3 * (t + 768) / 5 ∧
      (BlockProvider.new (t + 768)).dcache.max_blocks = 2 * (t + 768) / 5 := by
  decide

set_option maxRecDepth 10000 in
set_option maxHeartbeats 1600000 in
theorem provider_caps_chunk7 : ∀ t, t < 128 →
    (BlockProvider.new (t + 896)).scache.max_blocks = 3 * (t + 896) / 5 ∧
      (BlockProvider.new (t + 896)).dcache.max_blocks = 2 * (t + 896) / 5 := by
  decide

theorem provider_caps_upto (total : ℕ) (h : total < 1024) :
    (BlockProvider.new total).scache.max_blocks = 3 * total / 5 ∧
      (BlockProvider.new total).dcache.max_blocks = 2 * total / 5 := by
  by_cases c0 : total < 128
  · exact provider_caps_chunk0 total c0
  by_cases c1 : total < 256
  · have hx := provider_caps_chunk1 (total - 128) (by omega)
    have he : total - 128 + 128 = total := by omega
    rw [he] at hx
    exact hx
  by_cases c2 : total < 384
  · have hx := provider_caps_chunk2 (total - 256) (by omega)
    have he : total - 256 + 256 = total := by omega
    rw [he] at hx
    exact hx
  by_cases c3 : total < 512
  · have hx := provider_caps_chunk3 (total - 384) (by omega)
    have he : total - 384 + 384 = total := by omega
    rw [he] at hx
    exact hx
  by_cases c4 : total < 640
  · have hx := provider_caps_chunk4 (total - 512) (by omega)
    have he : total - 512 + 512 = total := by omega
    rw [he] at hx
    exact hx
  by_cases c5 : total < 768
  · have hx := provider_caps_chunk5 (total - 640) (by omega)
    have he : total - 640 + 640 = total := by omega
    rw [he] at hx
    exact hx
  by_cases c6 : total < 896
  · have hx := provider_caps_chunk6 (total - 768) (by omega)
    have he : total - 768 + 768 = total := by omega
    rw [he] at hx
    exact hx
  by_cases c7 : total < 1024
  · have hx := provider_caps_chunk7 (total - 896) (by omega)
    have he : total - 896 + 896 = total := by omega
    rw [he] at hx
    exact hx
  omega

/-- C1 (amended): `Snapshot`-type cached-block reads use `scache`, whose
capacity is `(total as f64 * 0.6) as usize`, and `Signature`-type reads use
`dcache`, whose capacity is `(total as f64 * 0.4) as usize` — the `f64`
results are truncated, not rounded.  For every `total < 1024` these
capacities equal `⌊0.6 * total⌋ = 3 * total / 5` and
`⌊0.4 * total⌋ = 2 * total / 5`. -/
theorem provider_sizing_amended (total : ℕ) (h : total < 1024) :
    (BlockProvider.new total).scache.max_blocks = 3 * total / 5 ∧
    (BlockProvider.new total).dcache.max_blocks = 2 * total / 5 ∧
    ∀ (id : BlockId) (buflen : ℕ),
      (BlockProvider.new total).read_cached_block id buflen CacheType.Snapshot =
          (BlockProvider.new total).scache.read id buflen ∧
        (BlockProvider.new total).read_cached_block id buflen CacheType.Signature =
          (BlockProvider.new total).dcache.read id buflen := by
  refine ⟨(provider_caps_upto total h).1, (provider_caps_upto total h).2,
    fun id buflen => ⟨?_, ?_⟩⟩ <;>
    simp [BlockProvider.read_cached_block]

/-- C1 witness: the amended sizing theorem applied at `total = 10`. -/
theorem provider_sizing_amended_witness :
    (10 : ℕ) < 1024 ∧
    (BlockProvider.new 10).scache.max_blocks = 3 * 10 / 5 ∧
    (BlockProvider.new 10).dcache.max_blocks = 2 * 10 / 5 :=
  ⟨by decide, (provider_sizing_amended 10 (by decide)).1,
    (provider_sizing_amended 10 (by decide)).2.1⟩

/-- C2: the buffered branch of `Entry::read` panics (here: `none`) as soon
as the output buffer is longer than the `len` buffered bytes, because
`buf.copy_from_slice(&self.buf[pos..pos + len])` requires equal source and
destination lengths; the claimed behaviour (copy `min(len, out.len)` and
return it) holds only when `out.len ≤ len`, as the second and third
conjuncts show on one-byte buffers. -/
theorem entry_read_panics_on_long_buffer :
    Entry.read ⟨[42], 1, 0, ((0, 0), 0)⟩ [0, 0] = none ∧
    Entry.read ⟨[42], 1, 0, ((0, 0), 0)⟩ [0] =
      some (1, ⟨[42], 0, 1, ((0, 0), 0)⟩, [42]) ∧
    Entry.read ⟨[41, 42, 43], 2, 1, ((0, 0), 0)⟩ [0] =
      some (1, ⟨[41, 42, 43], 1, 2, ((0, 0), 0)⟩, [42]) := by
  decide

/-- C7 witness: a cache holding `id0` rejects a second write of `id0` and is
returned unchanged. -/
theorem write_present_id_frame_witness :
    (lookupBlock (((BlockCache.new 2).write ((0, 0), 0) [1, 2]).2).index
        ((0, 0), 0)).isSome = true ∧
    (((BlockCache.new 2).write ((0, 0), 0) [1, 2]).2).write ((0, 0), 0) [9] =
      (none, ((BlockCache.new 2).write ((0, 0), 0) [1, 2]).2) :=
  ⟨by decide, write_present_id_frame _ _ _ (by decide)⟩

theorem unescapeLoop_cons_ne (b : ℕ) (l : List ℕ) (hb : b ≠ 92) :
    unescapeLoop (b :: l) = b :: unescapeLoop l := by
  rw [unescapeLoop.eq_def]
  split
  · simp_all
  · rename_i heq
    injection heq with h1 _
    exact absurd h1 hb
  · rename_i heq
    injection heq with h1 _
    exact absurd h1 hb
  · rename_i heq
    injection heq with h1 h2
    rw [h1, h2]

theorem unescapeLoop_append (u v : List ℕ) (h : 92 ∉ u) :
    unescapeLoop (u ++ v) = u ++ unescapeLoop v := by
  induction u with
  | nil => simp
  | cons b rest ih =>
    have hb : b ≠ 92 := fun e => h (by simp [e])
    have hr : 92 ∉ rest := fun hm => h (List.mem_cons_of_mem _ hm)
    rw [List.cons_append, unescapeLoop_cons_ne b _ hb, ih hr, List.cons_append]

theorem unescapeLoop_no_backslash (u : List ℕ) (h : 92 ∉ u) :
    unescapeLoop u = u := by
  have := unescapeLoop_append u [] h
  simpa [unescapeLoop] using this

theorem escByte_digits (a b : ℕ) (ha : 48 ≤ a ∧ a ≤ 57) (hb : 48 ≤ b ∧ b ≤ 57) :
    escByte a b = 16 * (a - 48) + (b - 48) := by
  obtain ⟨ha1, ha2⟩ := ha
  obtain ⟨hb1, hb2⟩ := hb
  simp only [escByte, wsub, wadd, wshl4]
  omega

/-- C5 counterexample: the word `\x1a` should unescape to the byte `0x1a =
26` under the claim, but the code computes `(b'1' - b'0') << 4 + b'a' -
b'0' = 65`. -/
theorem unescape_hex_letter_counterexample :
    unescape [92, 120, 49, 97] = [65] ∧ unescape [92, 120, 49, 97] ≠ [26] := by
  decide

/-- C5 (amended): `\xHH` is replaced by the byte with hex value `HH` only
when both `H` are decimal digits (then the value is `16*(H1-48) +
(H2-48)`); bytes outside the escape pass through verbatim.  (With hex
letter digits the code computes a different byte, see the counterexample.)
-/
theorem unescape_decimal_escape (pre post : List ℕ) (a b : ℕ)
    (hpre : 92 ∉ pre) (hpost : 92 ∉ post) (hq : pre.head? ≠ some 34)
    (ha : 48 ≤ a ∧ a ≤ 57) (hb : 48 ≤ b ∧ b ≤ 57) :
    unescape (pre ++ 92 :: 120 :: a :: b :: post) =
      pre ++ (16 * (a - 48) + (b - 48)) :: post := by
  have hinner : unescapeLoop (92 :: 120 :: a :: b :: post) =
      (16 * (a - 48) + (b - 48)) :: post := by
    rw [show unescapeLoop (92 :: 120 :: a :: b :: post) =
        escByte a b :: unescapeLoop post from rfl]
    rw [escByte_digits a b ha hb, unescapeLoop_no_backslash post hpost]
  rcases pre with _ | ⟨p0, prest⟩
  · simp only [List.nil_append]
    rw [show unescape (92 :: 120 :: a :: b :: post) =
        unescapeLoop (92 :: 120 :: a :: b :: post) by simp [unescape]]
    rw [hinner]
  · have hne : p0 ≠ 34 := by simpa using hq
    have hcond : ¬(p0 = 34 ∧
        1 < ((p0 :: prest) ++ 92 :: 120 :: a :: b :: post).length) :=
      fun hcon => hne hcon.1
    show unescape (p0 :: (prest ++ 92 :: 120 :: a :: b :: post)) = _
    rw [show unescape (p0 :: (prest ++ 92 :: 120 :: a :: b :: post)) =
        unescapeLoop ((p0 :: prest) ++ 92 :: 120 :: a :: b :: post) by
      simp only [unescape]
      rw [if_neg (by simpa using hcond)]
      simp]
    rw [unescapeLoop_append _ _ hpre, hinner]

/-- C5 witness: `h\x20!` unescapes to `h !` (byte 32) by the amended
theorem. -/
theorem unescape_decimal_escape_witness :
    unescape [104, 92, 120, 51, 50, 33] = [104, 16 * (51 - 48) + (50 - 48), 33] :=
  unescape_decimal_escape [104] [33] 51 50 (by decide) (by decide) (by decide)
    (by decide) (by decide)

/-- C9: `Manifest::volume` is strictly 1-based: `volume 0` is `none`,
`volume n` for `1 ≤ n ≤ max_vol_num` is the `n`-th parsed volume, and
`volume n` for `n > max_vol_num` is `none`. -/
theorem manifest_volume_indexing (m : Manifest) (n : ℕ) :
    m.volume 0 = none ∧
    (∀ h : n - 1 < m.volumes.length, 1 ≤ n →
      m.volume n = some (m.volumes.get ⟨n - 1, h⟩)) ∧
    (m.max_vol_num < n → m.volume n = none) := by
  refine ⟨by simp [Manifest.volume], fun h h1 => ?_, fun h => ?_⟩
  · rw [Manifest.volume, if_neg (by omega)]
    exact List.get?_eq_get h
  · rw [Manifest.volume, if_neg (by simp [Manifest.max_vol_num] at h; omega)]
    refine List.get?_eq_none.2 ?_
    simp only [Manifest.max_vol_num] at h
    omega

/-- C9 witness: the indexing theorem on a one-volume manifest at
`n = 0, 1, 2`. -/
theorem manifest_volume_indexing_witness :
    (Manifest.mk [] [] [⟨⟨[97], none⟩, ⟨[99], none⟩, [], []⟩]).volume 0 =
        none ∧
    (Manifest.mk [] [] [⟨⟨[97], none⟩, ⟨[99], none⟩, [], []⟩]).volume 1 =
        some (([⟨⟨[97], none⟩, ⟨[99], none⟩, [], []⟩] : List Volume).get
          ⟨0, by decide⟩) ∧
    (Manifest.mk [] [] [⟨⟨[97], none⟩, ⟨[99], none⟩, [], []⟩]).volume 2 =
        none :=
  ⟨(manifest_volume_indexing (Manifest.mk [] []
      [⟨⟨[97], none⟩, ⟨[99], none⟩, [], []⟩]) 1).1,
    (manifest_volume_indexing (Manifest.mk [] []
      [⟨⟨[97], none⟩, ⟨[99], none⟩, [], []⟩]) 1).2.1 (by decide) (by decide),
    (manifest_volume_indexing (Manifest.mk [] []
      [⟨⟨[97], none⟩, ⟨[99], none⟩, [], []⟩]) 2).2.2 (by decide)⟩

/-- C10: a blank line (LF, CRLF, a lone CR at EOF, or EOF itself) at a
position where a `Volume` header is expected makes the volume loop stop
and return the volumes collected so far, whatever bytes follow; end to
end, `demoBlankInput` parses successfully to a zero-volume manifest even
though garbage follows its blank line. -/
theorem parse_stops_at_blank_line :
    (∀ (fuel : ℕ) (acc : List Volume) (buf rest : List ℕ),
      parseVolumesLoop (fuel + 1) acc ⟨10 :: rest, buf⟩ = .ok acc ∧
      parseVolumesLoop (fuel + 1) acc ⟨13 :: 10 :: rest, buf⟩ = .ok acc ∧
      parseVolumesLoop (fuel + 1) acc ⟨[13], buf⟩ = .ok acc ∧
      parseVolumesLoop (fuel + 1) acc ⟨[], buf⟩ = .ok acc) ∧
    Manifest.parse demoBlankInput =
      .ok ⟨[109, 121, 104, 111, 115, 116], [100, 105, 114], []⟩ :=
  ⟨fun _ _ _ _ => ⟨rfl, rfl, rfl, rfl⟩, rfl⟩

theorem parseVolumesLoop_ok_nums :
    ∀ (fuel : ℕ) (acc : List Volume) (p : PState) (vs : List Volume),
      parseVolumesLoop fuel acc p = .ok vs →
      acc.length ≤ vs.length ∧
        rvNums fuel p = List.range' (acc.length + 1) (vs.length - acc.length) := by
  intro fuel
  induction fuel with
  | zero =>
    intro acc p vs h
    exact absurd h (by simp [parseVolumesLoop])
  | succ n ih =>
    intro acc p vs h
    rw [parseVolumesLoop] at h
    rw [rvNums]
    cases hrv : read_volume p with
    | mk p2 res =>
      rw [hrv] at h
      cases res with
      | error e => simp at h
      | ok o =>
        cases o with
        | none =>
          dsimp only at h ⊢
          simp only [Except.ok.injEq] at h
          subst h
          simp
        | some vi =>
          dsimp only at h ⊢
          by_cases hnum : vi.2 = acc.length + 1
          · simp only [hnum, ne_eq, not_true_eq_false, if_false, ite_false] at h
            have h2 : parseVolumesLoop n (acc ++ [vi.1]) p2 = .ok vs := by
              simpa using h
            obtain ⟨hlen, hr⟩ := ih _ _ _ h2
            simp only [List.length_append, List.length_singleton] at hlen hr
            refine ⟨by omega, ?_⟩
            rw [hr, hnum]
            have hL : vs.length - acc.length = (vs.length - (acc.length + 1)) + 1 := by
              omega
            rw [hL, List.range'_succ]
          · simp [hnum] at h

theorem parseVolumesLoop_first_mismatch :
    ∀ (fuel : ℕ) (acc : List Volume) (p : PState) (k : ℕ),
      k < (rvNums fuel p).length →
      (∀ j, j < k → (rvNums fuel p).getD j 0 = acc.length + 1 + j) →
      (rvNums fuel p).getD k 0 ≠ acc.length + 1 + k →
      parseVolumesLoop fuel acc p =
        .error (.OutOfOrderVolume ((rvNums fuel p).getD k 0)) := by
  intro fuel
  induction fuel with
  | zero =>
    intro acc p k hk
    simp [rvNums] at hk
  | succ n ih =>
    intro acc p k hk hpre hne
    rw [rvNums] at hk hpre hne ⊢
    rw [parseVolumesLoop]
    generalize read_volume p = pr at hk hpre hne ⊢
    obtain ⟨p2, res⟩ := pr
    · cases res with
      | error e => simp at hk
      | ok o =>
        cases o with
        | none => simp at hk
        | some vi =>
          dsimp only at hk hpre hne ⊢
          cases k with
          | zero =>
            simp only [List.getD_cons_zero] at hne ⊢
            rw [if_pos (by omega)]
          | succ k2 =>
            have h0 : vi.2 = acc.length + 1 := by
              have := hpre 0 (Nat.succ_pos _)
              simpa using this
            rw [if_neg (by simp [h0])]
            simp only [List.getD_cons_succ] at hpre hne ⊢
            refine ih (acc ++ [vi.1]) p2 k2 (by simpa using hk) ?_ ?_
            · intro j hj
              have := hpre (j + 1) (by omega)
              simp only [List.getD_cons_succ] at this
              rw [this]
              simp only [List.length_append, List.length_singleton]
              omega
            · simp only [List.length_append, List.length_singleton]
              intro hcon
              exact hne (by omega)

/-- C6: `Manifest::parse` succeeds only when the volume numbers in the
input (the numbers produced by running `read_volume` repeatedly after the
header) are exactly `1, 2, …, n` for the `n` volumes of the resulting
manifest; and when the first deviating number appears at position `k`
(carrying `n ≠ k + 1`), parse returns `OutOfOrderVolume n`. -/
theorem parse_volume_numbers (input : List ℕ) :
    (∀ (m : Manifest) hdp, parseHeader input = .ok hdp →
      Manifest.parse input = .ok m →
      rvNums (hdp.2.2.input.length + 1) hdp.2.2 =
        List.range' 1 m.volumes.length) ∧
    (∀ hdp (k : ℕ), parseHeader input = .ok hdp →
      k < (rvNums (hdp.2.2.input.length + 1) hdp.2.2).length →
      (∀ j, j < k →
        (rvNums (hdp.2.2.input.length + 1) hdp.2.2).getD j 0 = j + 1) →
      (rvNums (hdp.2.2.input.length + 1) hdp.2.2).getD k 0 ≠ k + 1 →
      Manifest.parse input =
        .error (.OutOfOrderVolume
          ((rvNums (hdp.2.2.input.length + 1) hdp.2.2).getD k 0))) := by
  constructor
  · intro m hdp hh hp
    rw [Manifest.parse, hh] at hp
    dsimp only at hp
    generalize hloop : parseVolumesLoop (hdp.2.2.input.length + 1) [] hdp.2.2
      = L at hp
    cases L with
    | error e => simp at hp
    | ok vols =>
      dsimp only at hp
      simp only [Except.ok.injEq] at hp
      obtain ⟨_, hr⟩ := parseVolumesLoop_ok_nums _ [] _ _ hloop
      simp only [List.length_nil, Nat.zero_add, Nat.sub_zero] at hr
      rw [hr, ← hp]
  · intro hdp k hh hk hpre hne
    rw [Manifest.parse, hh]
    dsimp only
    rw [parseVolumesLoop_first_mismatch (hdp.2.2.input.length + 1) [] hdp.2.2 k
      hk
      (fun j hj => by rw [hpre j hj]; simp only [List.length_nil]; omega)
      (by simp only [List.length_nil]; intro hcon; exact hne (by omega))]

/-- C6 witness: `demoOooInput` has first volume number 2 at position 0, and
parse fails with `OutOfOrderVolume 2`. -/
theorem parse_volume_numbers_witness :
    parseHeader demoOooInput = .ok demoOooHdr ∧
    (rvNums (demoOooHdr.2.2.input.length + 1) demoOooHdr.2.2).getD 0 0 = 2 ∧
    Manifest.parse demoOooInput =
      .error (.OutOfOrderVolume
        ((rvNums (demoOooHdr.2.2.input.length + 1) demoOooHdr.2.2).getD 0 0)) :=
  ⟨rfl, rfl,
    (parse_volume_numbers demoOooInput).2 demoOooHdr 0 rfl (by decide)
      (fun j hj => absurd hj (by omega)) (by decide)⟩

theorem bsearchAux_ok {α : Type} (f : α → Ordering) :
    ∀ (fuel base : ℕ) (s : List α) (i : ℕ),
      bsearchAux f fuel base s = .ok i →
      ∃ j, ∃ hj : j < s.length, i = base + j ∧ f s[j] = .eq := by
  intro fuel
  induction fuel with
  | zero =>
    intro base s i h
    simp [bsearchAux] at h
  | succ n ih =>
    intro base s i h
    rw [bsearchAux] at h
    generalize hd : s.drop (s.length / 2) = tl at h
    cases tl with
    | nil => simp at h
    | cons t0 trest =>
      have hm : s.length / 2 < s.length := by
        have := congrArg List.length hd
        simp only [List.length_drop, List.length_cons] at this
        omega
      have hd2 := List.drop_eq_getElem_cons hm
      rw [hd] at hd2
      injection hd2 with ht0 htrest
      have htake : (s.take (s.length / 2)).length = s.length / 2 := by
        simp [List.length_take]
        omega
      dsimp only at h
      subst ht0
      subst htrest
      cases hf : f s[s.length / 2] with
      | lt =>
        rw [hf] at h
        obtain ⟨j, hj, hij, hjeq⟩ := ih _ _ _ h
        simp only [List.length_drop] at hj
        rw [List.getElem_drop] at hjeq
        exact ⟨s.length / 2 + 1 + j, by omega, by rw [hij, htake]; omega, hjeq⟩
      | gt =>
        rw [hf] at h
        obtain ⟨j, hj, hij, hjeq⟩ := ih _ _ _ h
        have hj2 : j < s.length / 2 := by
          rw [htake] at hj
          exact hj
        rw [List.getElem_take] at hjeq
        exact ⟨j, by omega, hij, hjeq⟩
      | eq =>
        rw [hf] at h
        simp only [Except.ok.injEq] at h
        exact ⟨s.length / 2, hm, by rw [← h, htake], hf⟩

theorem bsearchAux_finds {α : Type} (f : α → Ordering) :
    ∀ (fuel base : ℕ) (s : List α) (i : ℕ) (hi : i < s.length),
      s.length < fuel →
      (∀ j (hj : j < s.length), j < i → f s[j] = .lt) →
      f s[i] = .eq →
      (∀ j (hj : j < s.length), i < j → f s[j] = .gt) →
      bsearchAux f fuel base s = .ok (base + i) := by
  intro fuel
  induction fuel with
  | zero =>
    intro base s i hi hfuel
    omega
  | succ n ih =>
    intro base s i hi hfuel hlt heq hgt
    rw [bsearchAux]
    have hm : s.length / 2 < s.length := Nat.div_lt_self (by omega) (by omega)
    rw [List.drop_eq_getElem_cons hm]
    have htake : (s.take (s.length / 2)).length = s.length / 2 := by
      simp [List.length_take]
      omega
    dsimp only
    rcases Nat.lt_trichotomy (s.length / 2) i with hmi | hmi | hmi
    · rw [hlt (s.length / 2) hm hmi]
      dsimp only
      have harith : base + i =
          base + (s.take (s.length / 2)).length + 1 + (i - s.length / 2 - 1) := by
        rw [htake]; omega
      rw [harith]
      refine ih _ _ _ ?_ ?_ ?_ ?_ ?_
      · rw [List.length_drop]
        omega
      · rw [List.length_drop]
        omega
      · intro j hj hji
        rw [List.length_drop] at hj
        rw [List.getElem_drop]
        exact hlt _ (by omega) (by omega)
      · rw [List.getElem_drop]
        have h2 : s.length / 2 + 1 + (i - s.length / 2 - 1) = i := by omega
        simp only [h2]
        exact heq
      · intro j hj hji
        rw [List.length_drop] at hj
        rw [List.getElem_drop]
        exact hgt _ (by omega) (by omega)
    · subst hmi
      rw [heq]
      dsimp only
      rw [htake]
    · rw [hgt (s.length / 2) hm hmi]
      dsimp only
      refine ih _ _ _ ?_ ?_ ?_ ?_ ?_
      · rw [htake]
        exact hmi
      · rw [htake]
        omega
      · intro j hj hji
        rw [List.getElem_take]
        exact hlt _ (by omega) hji
      · rw [List.getElem_take]
        exact heq
      · intro j hj hji
        rw [htake] at hj
        rw [List.getElem_take]
        exact hgt _ (by omega) hji

theorem volCmp_eq_implies (v : Volume) (p : List ℕ) (h : volCmp p v = .eq) :
    compareBytes p v.start_path.path ≠ .lt ∧
      (volContains v p ∨ compareBytes p v.start_path.path = .eq) := by
  unfold volCmp at h
  cases hs : compareBytes p v.start_path.path <;> rw [hs] at h
  · simp at h
  · exact ⟨by simp [hs], Or.inr rfl⟩
  · cases he : compareBytes p v.end_path.path <;> rw [he] at h
    · exact ⟨by simp [hs], Or.inl ⟨by simp [hs], by simp [he]⟩⟩
    · exact ⟨by simp [hs], Or.inl ⟨by simp [hs], by simp [he]⟩⟩
    · simp at h

/-- C4 counterexample: `demoDupInput` parses to a manifest with two volumes
whose ranges both contain the path `b` (`[98]`), yet
`first_volume_of_path` returns volume 2, not the smallest containing
volume 1. -/
theorem first_volume_of_path_counterexample :
    Manifest.parse demoDupInput = .ok demoDupManifest ∧
    demoDupManifest.first_volume_of_path [98] = some 2 ∧
    volContains (demoDupManifest.volumes.get ⟨0, by decide⟩) [98] ∧
    volContains (demoDupManifest.volumes.get ⟨1, by decide⟩) [98] :=
  ⟨rfl, rfl, by decide, by decide⟩

/-- C4 (amended): whenever `first_volume_of_path p` returns `some k`, the
1-based `k` points at a volume `V` with `start(V) ≤ p`, and `p ≤ end(V)`
unless `p = start(V)` (the comparator accepts `p = start` without looking
at `end`); and whenever the comparator for `p` is `Less` on every volume
before `i`, `Equal` at `i` and `Greater` on every volume after `i` — as it
is for sorted contiguous manifests, where a tie `p = end(Vᵢ) = start(Vᵢ₊₁)`
with `start_block > 0` makes the comparator `Greater` at `Vᵢ₊₁` — the
result is `some (i + 1)`, the earlier volume. -/
theorem first_volume_of_path_amended (m : Manifest) (p : List ℕ) :
    (∀ k, m.first_volume_of_path p = some k →
      1 ≤ k ∧ ∃ hk : k - 1 < m.volumes.length,
        compareBytes p (m.volumes[k - 1].start_path.path) ≠ .lt ∧
        (volContains m.volumes[k - 1] p ∨
          compareBytes p (m.volumes[k - 1].start_path.path) = .eq)) ∧
    (∀ i (hi : i < m.volumes.length),
      (∀ j (hj : j < m.volumes.length), j < i → volCmp p m.volumes[j] = .lt) →
      volCmp p m.volumes[i] = .eq →
      (∀ j (hj : j < m.volumes.length), i < j → volCmp p m.volumes[j] = .gt) →
      m.first_volume_of_path p = some (i + 1)) := by
  constructor
  · intro k hk
    rw [Manifest.first_volume_of_path, binary_search_by] at hk
    generalize hb : bsearchAux (volCmp p) (m.volumes.length + 1) 0 m.volumes
      = r at hk
    cases r with
    | error e => simp at hk
    | ok idx =>
      simp only [Option.some.injEq] at hk
      obtain ⟨j, hj, hij, hjeq⟩ := bsearchAux_ok _ _ _ _ _ hb
      rw [Nat.zero_add] at hij
      have hkj : k - 1 = j := by omega
      obtain ⟨h1, h2⟩ := volCmp_eq_implies _ _ hjeq
      refine ⟨by omega, by rw [hkj]; exact hj, ?_, ?_⟩
      · rw [show m.volumes[k - 1] = m.volumes[j] by congr 1]
        exact h1
      · rw [show m.volumes[k - 1] = m.volumes[j] by congr 1]
        exact h2
  · intro i hi hlt heq hgt
    rw [Manifest.first_volume_of_path, binary_search_by]
    rw [bsearchAux_finds (volCmp p) (m.volumes.length + 1) 0 m.volumes i hi
      (by omega) hlt heq hgt]
    simp

/-- C4 witness: on the contiguous `demoTieManifest` the comparator for path
`b` is `Equal` at volume 1 and `Greater` at volume 2 (whose `start_block`
is 2 > 0), and the search returns volume 1 — the earlier volume wins the
tie. -/
theorem first_volume_of_path_amended_witness :
    Manifest.parse demoTieInput = .ok demoTieManifest ∧
    volCmp [98] ⟨⟨[98], some 2⟩, ⟨[100], none⟩, [83, 72, 65, 49], [0, 0]⟩ =
      .gt ∧
    demoTieManifest.first_volume_of_path [98] = some (0 + 1) :=
  ⟨rfl, by decide,
    (first_volume_of_path_amended demoTieManifest [98]).2 0 (by decide)
      (fun j hj hji => absurd hji (by omega))
      (by decide)
      (fun j hj hji => by
        have hlen : demoTieManifest.volumes.length = 2 := by decide
        have hj1 : j = 1 := by omega
        subst hj1
        exact (by decide :
          volCmp [98] (demoTieManifest.volumes.get ⟨1, by decide⟩) = .gt))⟩

/-- C8: every `FileName` emitted by the classifier has `compressed` set iff
the lowercased name ends in `.gz` or `.z`, and `encrypted` set iff it ends
in `.gpg` or `.g` (so the comparison is ASCII case-insensitive). -/
theorem classifier_suffix_flags (name : List ℕ) (f : FileName)
    (h : FileNameParser.parse name = some f) :
    (f.compressed = true ↔
      (endsWithB (to_ascii_lowercase name) [46, 103, 122] = true ∨
        endsWithB (to_ascii_lowercase name) [46, 122] = true)) ∧
    (f.encrypted = true ↔
      (endsWithB (to_ascii_lowercase name) [46, 103, 112, 103] = true ∨
        endsWithB (to_ascii_lowercase name) [46, 103] = true)) := by
  rw [FileNameParser.parse] at h
  cases hc : check_full (to_ascii_lowercase name) with
  | none => rw [hc] at h; exact absurd h (by simp)
  | some r =>
    rw [hc] at h
    simp only [Option.some.injEq] at h
    subst h
    constructor
    · simp [is_compressed, Bool.or_eq_true]
    · simp [is_encrypted, Bool.or_eq_true]

/-- C8 witness: `duplicity-full.2015.vol1.difftar.GZ` classifies with
`compressed = true`, and the suffix equivalence holds for it. -/
theorem classifier_suffix_flags_witness :
    FileNameParser.parse
        [100, 117, 112, 108, 105, 99, 105, 116, 121, 45, 102, 117, 108, 108,
         46, 50, 48, 49, 53, 46, 118, 111, 108, 49, 46, 100, 105, 102, 102,
         116, 97, 114, 46, 71, 90] =
      some ⟨.Full, false, 1, [50, 48, 49, 53], true, false, false⟩ ∧
    ((⟨.Full, false, 1, [50, 48, 49, 53], true, false,
        false⟩ : FileName).compressed = true ↔
      (endsWithB (to_ascii_lowercase
          [100, 117, 112, 108, 105, 99, 105, 116, 121, 45, 102, 117, 108,
           108, 46, 50, 48, 49, 53, 46, 118, 111, 108, 49, 46, 100, 105,
           102, 102, 116, 97, 114, 46, 71, 90]) [46, 103, 122] = true ∨
        endsWithB (to_ascii_lowercase
          [100, 117, 112, 108, 105, 99, 105, 116, 121, 45, 102, 117, 108,
           108, 46, 50, 48, 49, 53, 46, 118, 111, 108, 49, 46, 100, 105,
           102, 102, 116, 97, 114, 46, 71, 90]) [46, 122] = true)) :=
  ⟨by decide, (classifier_suffix_flags _ _ (by decide)).1⟩

end Ruplicity
